import Mathlib

/-!
Verification of the frame-normalization and sprite-compositing core of the
`ai_animation` scripts: the frame repair routine `fix_frame`
(generate_improved.py), the hex-color parser `hex_to_rgba` and the
rasterizers `ascii_to_image` / `create_sprite_sheet`
(ascii_to_sprite.py, convert_single_frame.py).

Text lines are modelled as `List Char`; a frame is a `List (List Char)`.
Machine integers do not occur (Python integers are unbounded); pixel
channel values are `Int` because Python's `int(s, 16)` can return negative
values that the code stores unchecked in the RGBA tuple.
-/

/-- The whitespace characters recognised by Python's `str.rstrip()` /
`str.strip()` and by `int()`'s argument stripping, restricted to the
Latin-1 range that can actually occur in this repository's data (the
higher Unicode space code points are omitted from the model). -/
def pyIsSpace (c : Char) : Bool :=
  c = ' ' || c = '\t' || c = '\n' || c = '\x0b' || c = '\x0c' || c = '\r' ||
  c = '\x1c' || c = '\x1d' || c = '\x1e' || c = '\x1f' || c = '\x85' || c = '\xa0'

/-- Python's `line.rstrip()`: drop trailing whitespace. -/
def rstrip (l : List Char) : List Char :=
  (l.reverse.dropWhile pyIsSpace).reverse

/-- `" " * n`. -/
def spaces (n : Nat) : List Char := List.replicate n ' '

/-- The per-line body of `fix_frame` (generate_improved.py lines 101-107):
`line = line.rstrip()`, then pad on the right with spaces to `W` if
shorter, else truncate with `line[:W]`. -/
def fixLine (W : Nat) (line : List Char) : List Char :=
  let s := rstrip line
  if s.length < W then s ++ spaces (W - s.length) else s.take W

/-- `fix_frame` of generate_improved.py. The source hardcodes both target
dimensions to 16; following the spec's `normalize(rawLines, targetHeight,
targetWidth)` they are parameters `H`, `W` here, the code being the
`H = W = 16` instance. The `lines.isEmpty` branch is the source's
`if not lines: return [" " * 16] * 16`; otherwise the first `H` lines are
repaired with `fixLine` and all-space lines are appended while fewer than
`H` rows exist. -/
def fix_frame (H W : Nat) (lines : List (List Char)) : List (List Char) :=
  if lines.isEmpty then List.replicate H (spaces W)
  else
    let fixed := (lines.take H).map (fixLine W)
    fixed ++ List.replicate (H - fixed.length) (spaces W)

/-- Modelled from the spec's words (section 4.1), for comparison with the
source's `fix_frame`: "For each of the first targetHeight input lines:
strip trailing whitespace first, then pad on the right with the space
character if shorter than targetWidth, or truncate to exactly targetWidth
if longer. If the input has more than targetHeight lines, discard the
excess trailing lines. If fewer than targetHeight lines result, append
additional all-space lines of length targetWidth until exactly
targetHeight lines exist." -/
def normalize_spec (H W : Nat) (X : List (List Char)) : List (List Char) :=
  let processed := (X.take H).map (fun line =>
    let s := rstrip line
    if s.length < W then s ++ spaces (W - s.length) else s.take W)
  processed ++ List.replicate (H - processed.length) (spaces W)

lemma rstrip_length_le (l : List Char) : (rstrip l).length ≤ l.length := by
  unfold rstrip
  simp only [List.length_reverse]
  have := (List.dropWhile_sublist (l := l.reverse) (p := pyIsSpace)).length_le
  simpa using this

lemma spaces_length (n : Nat) : (spaces n).length = n := by
  simp [spaces]

lemma fixLine_length (W : Nat) (line : List Char) : (fixLine W line).length = W := by
  unfold fixLine
  by_cases h : (rstrip line).length < W
  · simp [h, spaces]
    omega
  · simp [h]
    omega

lemma fix_frame_length (H W : Nat) (lines : List (List Char)) :
    (fix_frame H W lines).length = H := by
  unfold fix_frame
  by_cases h : lines.isEmpty
  · simp [h]
  · rw [if_neg h, List.length_append, List.length_map, List.length_replicate]
    have : (lines.take H).length ≤ H := List.length_take_le H lines
    omega

lemma fix_frame_rows (H W : Nat) (lines : List (List Char)) :
    ∀ row ∈ fix_frame H W lines, row.length = W := by
  intro row hrow
  unfold fix_frame at hrow
  by_cases h : lines.isEmpty
  · rw [if_pos h] at hrow
    rw [List.eq_of_mem_replicate hrow]
    exact spaces_length W
  · rw [if_neg h, List.mem_append] at hrow
    rcases hrow with hrow | hrow
    · obtain ⟨l, _, hl⟩ := List.mem_map.mp hrow
      rw [← hl]
      exact fixLine_length W l
    · rw [List.eq_of_mem_replicate hrow]
      exact spaces_length W

lemma rstrip_eq_rdropWhile (l : List Char) : rstrip l = l.rdropWhile pyIsSpace := rfl

lemma rstrip_idem (l : List Char) : rstrip (rstrip l) = rstrip l := by
  simp [rstrip_eq_rdropWhile, List.rdropWhile_idempotent]

lemma pyIsSpace_space : pyIsSpace ' ' = true := by decide

lemma rstrip_append_spaces (l : List Char) (n : Nat) :
    rstrip (l ++ spaces n) = rstrip l := by
  induction n with
  | zero => simp [spaces]
  | succ m ih =>
    have : l ++ spaces (m + 1) = (l ++ spaces m) ++ [' '] := by
      simp [spaces, List.replicate_succ']
    rw [this, rstrip_eq_rdropWhile,
      List.rdropWhile_concat_pos _ _ _ (by simp [pyIsSpace_space]),
      ← rstrip_eq_rdropWhile, ih]

lemma mem_of_mem_rstrip {c : Char} {l : List Char} (h : c ∈ rstrip l) : c ∈ l := by
  rw [rstrip_eq_rdropWhile] at h
  have hpre := List.rdropWhile_prefix pyIsSpace l
  exact hpre.subset h

/-- A line whose whitespace characters are all the plain space splits, at
its trailing run of whitespace, into its `rstrip` and a block of spaces. -/
lemma eq_rstrip_append_spaces {l : List Char}
    (h : ∀ c ∈ l, pyIsSpace c = true → c = ' ') :
    ∃ k, l = rstrip l ++ spaces k := by
  have hsplit := List.takeWhile_append_dropWhile pyIsSpace l.reverse
  have hrep : ∃ k, l.reverse.takeWhile pyIsSpace = List.replicate k ' ' := by
    refine ⟨(l.reverse.takeWhile pyIsSpace).length, List.eq_replicate_of_mem ?_⟩
    intro b hb
    have hp : pyIsSpace b = true := List.mem_takeWhile_imp hb
    have hmem : b ∈ l := by
      have := (List.takeWhile_sublist (p := pyIsSpace) (l := l.reverse)).subset hb
      simpa using this
    exact h b hmem hp
  obtain ⟨k, hk⟩ := hrep
  refine ⟨k, ?_⟩
  have hdec : l = (l.reverse.dropWhile pyIsSpace).reverse ++
      (List.replicate k ' ').reverse := by
    rw [← hk, ← List.reverse_append, hsplit, List.reverse_reverse]
  show l = (l.reverse.dropWhile pyIsSpace).reverse ++ List.replicate k ' '
  conv_lhs => rw [hdec]
  rw [List.reverse_replicate]

lemma mem_fixLine {c : Char} {W : Nat} {line : List Char}
    (h : c ∈ fixLine W line) : c ∈ line ∨ c = ' ' := by
  unfold fixLine at h
  by_cases hlt : (rstrip line).length < W
  · rw [if_pos hlt, List.mem_append] at h
    rcases h with h | h
    · exact Or.inl (mem_of_mem_rstrip h)
    · exact Or.inr (List.eq_of_mem_replicate h)
  · rw [if_neg hlt] at h
    exact Or.inl (mem_of_mem_rstrip (List.mem_of_mem_take h))

/-- A line of exactly the target width whose whitespace is all plain
spaces is a fixed point of the per-line repair. -/
lemma fixLine_fixed {W : Nat} {l : List Char} (h1 : l.length = W)
    (h2 : ∀ c ∈ l, pyIsSpace c = true → c = ' ') : fixLine W l = l := by
  obtain ⟨k, hk⟩ := eq_rstrip_append_spaces h2
  have hlen : (rstrip l).length + k = W := by
    have := congrArg List.length hk
    simp [spaces] at this
    omega
  simp only [fixLine]
  by_cases hlt : (rstrip l).length < W
  · rw [if_pos hlt]
    have hkW : W - (rstrip l).length = k := by omega
    rw [hkW]
    exact hk.symm
  · rw [if_neg hlt]
    have hk0 : k = 0 := by omega
    have hl : l = rstrip l := by
      rw [hk0] at hk
      simpa [spaces] using hk
    rw [← hl]
    exact List.take_of_length_le (le_of_eq h1)

/-- C1 — For every sequence of raw lines and target dimensions H and W,
`fix_frame` (the spec's `normalize`) succeeds without any error (it is a
total function) and returns exactly H rows, each a line of exactly W
characters; the quantification covers the empty sequence, a single very
long line and more than H short lines. -/
theorem fix_frame_shape (H W : Nat) (lines : List (List Char)) :
    (fix_frame H W lines).length = H ∧
      ∀ row ∈ fix_frame H W lines, row.length = W :=
  ⟨fix_frame_length H W lines, fix_frame_rows H W lines⟩

/-- C2 — `fix_frame` processes the first `H` input lines by rstripping,
then right-padding with spaces to width `W` or truncating to `W`; input
lines beyond the first `H` are discarded; all-space lines are appended
until exactly `H` rows exist. Stated as equality with `normalize_spec`,
the definition transcribed from the spec's words. -/
theorem fix_frame_eq_normalize_spec (H W : Nat) (X : List (List Char)) :
    fix_frame H W X = normalize_spec H W X := by
  unfold fix_frame normalize_spec
  by_cases h : X.isEmpty
  · have hX : X = [] := List.isEmpty_iff.mp h
    subst hX
    simp
  · rw [if_neg h]
    rfl

/-- C7 as stated is false: truncation can leave a non-space whitespace
character (here a tab) at the end of a row, which a second pass strips
and replaces by a space. With target dimensions H = 1, W = 2 and the raw
input `["a\tx"]`, the first pass yields `["a\t"]` but the second pass
yields `["a "]`. -/
theorem fix_frame_not_idempotent :
    fix_frame 1 2 (fix_frame 1 2 [['a', '\t', 'x']]) ≠
      fix_frame 1 2 [['a', '\t', 'x']] := by
  decide

/-- A frame that already has the canonical shape, and whose whitespace is
all plain spaces, is a fixed point of `fix_frame`. -/
lemma fix_frame_fixed {H W : Nat} {Y : List (List Char)}
    (hlen : Y.length = H) (hrows : ∀ row ∈ Y, row.length = W)
    (hws : ∀ row ∈ Y, ∀ c ∈ row, pyIsSpace c = true → c = ' ') :
    fix_frame H W Y = Y := by
  rcases Y with _ | ⟨r, Ytl⟩
  · unfold fix_frame
    simp at hlen
    rw [← hlen]
    simp
  · have hne : (r :: Ytl).isEmpty = false := rfl
    have htake : (r :: Ytl).take H = r :: Ytl :=
      List.take_of_length_le (le_of_eq hlen)
    have hmap : (r :: Ytl).map (fixLine W) = r :: Ytl := by
      have hcongr : (r :: Ytl).map (fixLine W) = (r :: Ytl).map id :=
        List.map_congr_left fun row hrow =>
          fixLine_fixed (hrows row hrow) (hws row hrow)
      rw [hcongr, List.map_id]
    have hstep : fix_frame H W (r :: Ytl) =
        (r :: Ytl).map (fixLine W) ++
          List.replicate (H - ((r :: Ytl).map (fixLine W)).length) (spaces W) := by
      unfold fix_frame
      rw [hne]
      simp only [Bool.false_eq_true, if_false, htake]
    rw [hstep, hmap, hlen, Nat.sub_self]
    simp

/-- C7 (amended) — Normalization is idempotent for every raw input whose
whitespace characters are all the plain space character (in particular
for inputs free of tabs and other exotic whitespace):
`fix_frame H W (fix_frame H W X) = fix_frame H W X`. -/
theorem fix_frame_idempotent (H W : Nat) (X : List (List Char))
    (h : ∀ line ∈ X, ∀ c ∈ line, pyIsSpace c = true → c = ' ') :
    fix_frame H W (fix_frame H W X) = fix_frame H W X := by
  apply fix_frame_fixed (fix_frame_length H W X) (fix_frame_rows H W X)
  intro row hrow c hc hspace
  unfold fix_frame at hrow
  by_cases he : X.isEmpty
  · rw [if_pos he] at hrow
    rw [List.eq_of_mem_replicate hrow] at hc
    exact List.eq_of_mem_replicate hc
  · rw [if_neg he, List.mem_append] at hrow
    rcases hrow with hrow | hrow
    · obtain ⟨l, hl, hfl⟩ := List.mem_map.mp hrow
      rw [← hfl] at hc
      rcases mem_fixLine hc with hcl | hcl
      · exact h l (List.mem_of_mem_take hl) c hcl hspace
      · exact hcl
    · rw [List.eq_of_mem_replicate hrow] at hc
      exact List.eq_of_mem_replicate hc

/-- Witness for the amended C7 at a concrete input: the hypothesis (only
plain spaces as whitespace) holds for `["ab", "c"]` with H = W = 2, and
there normalization is indeed idempotent. -/
theorem fix_frame_idempotent_witness :
    fix_frame 2 2 (fix_frame 2 2 [['a', 'b'], ['c']]) =
      fix_frame 2 2 [['a', 'b'], ['c']] :=
  fix_frame_idempotent 2 2 [['a', 'b'], ['c']] (by decide)

/-- The value of one hexadecimal digit: ASCII `0-9`, `a-f`, `A-F`.
(Python's `int` additionally accepts non-ASCII Unicode decimal digits;
those cannot occur in this repository's color strings and are outside the
model.) -/
def hexDigitVal (c : Char) : Option Nat :=
  if '0' ≤ c ∧ c ≤ '9' then some (c.toNat - '0'.toNat)
  else if 'a' ≤ c ∧ c ≤ 'f' then some (c.toNat - 'a'.toNat + 10)
  else if 'A' ≤ c ∧ c ≤ 'F' then some (c.toNat - 'A'.toNat + 10)
  else none

/-- `c` is an ASCII hexadecimal digit. -/
def isHexDigit (c : Char) : Bool := (hexDigitVal c).isSome

/-- Digit tail of CPython's base-16 number grammar: further digits, with a
single underscore allowed between two digits (an underscore must be
followed by a digit, and cannot end the run). -/
def hexTail (acc : Nat) : List Char → Option Nat
  | [] => some acc
  | c :: rest =>
    if c = '_' then
      match rest with
      | [] => none
      | c2 :: rest2 =>
        match hexDigitVal c2 with
        | some d => hexTail (16 * acc + d) rest2
        | none => none
    else
      match hexDigitVal c with
      | some d => hexTail (16 * acc + d) rest
      | none => none

/-- Nonempty digit run: a digit followed by `hexTail`. -/
def hexNat : List Char → Option Nat
  | [] => none
  | c :: rest =>
    match hexDigitVal c with
    | some d => hexTail d rest
    | none => none

/-- After an optional `0x`/`0X` marker CPython also permits one
underscore before the first digit. -/
def hexAfterMarker (l : List Char) : Option Nat :=
  match l with
  | '_' :: rest => hexNat rest
  | _ => hexNat l

/-- CPython's base-16 number body: optional `0x`/`0X` marker, then a
nonempty underscore-separated digit run. -/
def pyIntHexCore (l : List Char) : Option Nat :=
  match l with
  | c0 :: c1 :: rest =>
    if c0 = '0' ∧ (c1 = 'x' ∨ c1 = 'X') then hexAfterMarker rest
    else hexNat l
  | _ => hexNat l

/-- Python's `str.strip()` (both ends), as used by `int()` on its string
argument. -/
def stripWS (l : List Char) : List Char :=
  ((l.dropWhile pyIsSpace).reverse.dropWhile pyIsSpace).reverse

/-- Python's `int(s, 16)`: strip whitespace, allow one optional sign, then
the base-16 body. Returns `none` where CPython raises `ValueError`. -/
def pyIntHex (l : List Char) : Option Int :=
  match stripWS l with
  | [] => none
  | c :: rest =>
    if c = '+' then (pyIntHexCore rest).map (fun n => Int.ofNat n)
    else if c = '-' then (pyIntHexCore rest).map (fun n => -(Int.ofNat n))
    else (pyIntHexCore (c :: rest)).map (fun n => Int.ofNat n)

/-- A 4-channel color as the code's `(r, g, b, a)` tuple. Channels are
`Int` because `int(s, 16)` can produce negative values (e.g. for
`"-f"`) which the code stores unchecked. -/
structure RGBA where
  r : Int
  g : Int
  b : Int
  a : Int
deriving DecidableEq

/-- `hex_to_rgba` of ascii_to_sprite.py / convert_single_frame.py:
`hex_color.lstrip('#')`, then dispatch on the length — 8 characters parse
as RRGGBBAA, 6 characters as RRGGBB with alpha 255, anything else raises
`ValueError` (modelled as `none`). Each 2-character slice goes through
`int(slice, 16)`. -/
def hex_to_rgba (hexColor : List Char) : Option RGBA :=
  let h := hexColor.dropWhile (· = '#')
  if h.length = 8 then
    match pyIntHex (h.take 2), pyIntHex ((h.drop 2).take 2),
        pyIntHex ((h.drop 4).take 2), pyIntHex ((h.drop 6).take 2) with
    | some r, some g, some b, some a => some ⟨r, g, b, a⟩
    | _, _, _, _ => none
  else if h.length = 6 then
    match pyIntHex (h.take 2), pyIntHex ((h.drop 2).take 2),
        pyIntHex ((h.drop 4).take 2) with
    | some r, some g, some b => some ⟨r, g, b, 255⟩
    | _, _, _ => none
  else none

/-- Pure value of a string of hexadecimal digits, big-endian; the
reference value against which `pyIntHex` is compared on all-digit
input. -/
def hexVal (l : List Char) : Nat :=
  l.foldl (fun acc c => 16 * acc + (hexDigitVal c).getD 0) 0

lemma isHexDigit_not_space {c : Char} (h : isHexDigit c = true) :
    pyIsSpace c = false := by
  by_contra hcon
  have hsp : pyIsSpace c = true := by
    revert hcon
    cases pyIsSpace c <;> simp
  unfold pyIsSpace at hsp
  simp only [Bool.or_eq_true, decide_eq_true_eq] at hsp
  rcases hsp with
    (((((((((((h1 | h1) | h1) | h1) | h1) | h1) | h1) | h1) | h1) | h1) | h1) | h1) <;>
    subst h1 <;> exact absurd h (by decide)

lemma isHexDigit_ne {c x : Char} (h : isHexDigit c = true)
    (hx : isHexDigit x = false) : c ≠ x := by
  intro he
  rw [he, hx] at h
  exact Bool.false_ne_true h

lemma dropWhile_eq_self_of_all_false {p : Char → Bool} {l : List Char}
    (h : ∀ c ∈ l, p c = false) : l.dropWhile p = l := by
  cases l with
  | nil => rfl
  | cons a t =>
    rw [List.dropWhile_cons, h a (List.mem_cons_self a t)]
    simp

lemma stripWS_of_no_space {l : List Char}
    (h : ∀ c ∈ l, pyIsSpace c = false) : stripWS l = l := by
  unfold stripWS
  rw [dropWhile_eq_self_of_all_false h,
    dropWhile_eq_self_of_all_false (by intro c hc; exact h c (by simpa using hc)),
    List.reverse_reverse]

lemma hexTail_all_digits {l : List Char}
    (h : ∀ c ∈ l, isHexDigit c = true) (acc : Nat) :
    hexTail acc l =
      some (l.foldl (fun a c => 16 * a + (hexDigitVal c).getD 0) acc) := by
  induction l generalizing acc with
  | nil => rfl
  | cons c rest ih =>
    have hc : isHexDigit c = true := h c (List.mem_cons_self c rest)
    obtain ⟨d, hd⟩ := Option.isSome_iff_exists.mp hc
    have hcne : c ≠ '_' := isHexDigit_ne hc (by decide)
    rw [hexTail.eq_def]
    simp only [hd]
    rw [if_neg hcne]
    simp only [List.foldl_cons, hd, Option.getD_some]
    exact ih (fun x hx => h x (List.mem_cons_of_mem c hx)) (16 * acc + d)

lemma hexNat_all_digits {l : List Char} (hne : l ≠ [])
    (h : ∀ c ∈ l, isHexDigit c = true) : hexNat l = some (hexVal l) := by
  cases l with
  | nil => exact absurd rfl hne
  | cons c rest =>
    have hc : isHexDigit c = true := h c (List.mem_cons_self c rest)
    obtain ⟨d, hd⟩ := Option.isSome_iff_exists.mp hc
    simp only [hexNat, hd]
    rw [hexTail_all_digits (fun x hx => h x (List.mem_cons_of_mem c hx)) d]
    unfold hexVal
    simp [hd]

lemma pyIntHexCore_all_digits {l : List Char} (hne : l ≠ [])
    (h : ∀ c ∈ l, isHexDigit c = true) : pyIntHexCore l = some (hexVal l) := by
  have hnat := hexNat_all_digits hne h
  cases l with
  | nil => exact absurd rfl hne
  | cons c0 t =>
    cases t with
    | nil => exact hnat
    | cons c1 rest =>
      simp only [pyIntHexCore]
      rw [if_neg]
      · exact hnat
      · rintro ⟨-, hx | hx⟩ <;>
          exact absurd hx (isHexDigit_ne
            (h c1 (List.mem_cons_of_mem c0 (List.mem_cons_self c1 rest)))
            (by decide))

lemma pyIntHex_all_digits {l : List Char} (hne : l ≠ [])
    (h : ∀ c ∈ l, isHexDigit c = true) :
    pyIntHex l = some (Int.ofNat (hexVal l)) := by
  cases l with
  | nil => exact absurd rfl hne
  | cons c rest =>
    have hc : isHexDigit c = true := h c (List.mem_cons_self c rest)
    have hstrip : stripWS (c :: rest) = c :: rest :=
      stripWS_of_no_space (fun x hx => isHexDigit_not_space (h x hx))
    simp only [pyIntHex, hstrip]
    rw [if_neg (isHexDigit_ne hc (by decide)),
      if_neg (isHexDigit_ne hc (by decide)),
      pyIntHexCore_all_digits hne h]
    rfl

lemma take_all_digits {h : List Char} (hmem : ∀ c ∈ h, isHexDigit c = true)
    (k : Nat) : ∀ c ∈ h.take k, isHexDigit c = true :=
  fun c hc => hmem c (List.mem_of_mem_take hc)

lemma drop_take_all_digits {h : List Char}
    (hmem : ∀ c ∈ h, isHexDigit c = true) (n k : Nat) :
    ∀ c ∈ (h.drop n).take k, isHexDigit c = true :=
  fun c hc =>
    hmem c ((List.drop_sublist n h).subset (List.mem_of_mem_take hc))

lemma take_two_ne_nil {h : List Char} {n : Nat} (hlen : n + 2 ≤ h.length) :
    (h.drop n).take 2 ≠ [] := by
  apply List.ne_nil_of_length_pos
  rw [List.length_take, List.length_drop]
  omega

/-- C6 — `hex_to_rgba` after stripping leading `#`: exactly 6 hexadecimal
digits parse to `(r, g, b, 255)`, exactly 8 hexadecimal digits parse to
`(r, g, b, a)` as given, and any other length is a `ValueError`
(modelled as `none`). -/
theorem hex_to_rgba_length_dispatch (s h : List Char)
    (hs : s.dropWhile (fun c => c = '#') = h) :
    (h.length = 6 → h.all isHexDigit = true →
      hex_to_rgba s = some ⟨Int.ofNat (hexVal (h.take 2)),
        Int.ofNat (hexVal ((h.drop 2).take 2)),
        Int.ofNat (hexVal ((h.drop 4).take 2)), 255⟩) ∧
    (h.length = 8 → h.all isHexDigit = true →
      hex_to_rgba s = some ⟨Int.ofNat (hexVal (h.take 2)),
        Int.ofNat (hexVal ((h.drop 2).take 2)),
        Int.ofNat (hexVal ((h.drop 4).take 2)),
        Int.ofNat (hexVal ((h.drop 6).take 2))⟩) ∧
    (h.length ≠ 6 → h.length ≠ 8 → hex_to_rgba s = none) := by
  refine ⟨?_, ?_, ?_⟩
  · intro h6 hall
    have hmem : ∀ c ∈ h, isHexDigit c = true := List.all_eq_true.mp hall
    have htk : h.take 2 = (h.drop 0).take 2 := by rw [List.drop_zero]
    simp only [hex_to_rgba]
    rw [hs, if_neg (by omega), if_pos h6,
      pyIntHex_all_digits (htk ▸ take_two_ne_nil (by omega))
        (take_all_digits hmem 2),
      pyIntHex_all_digits (take_two_ne_nil (by omega))
        (drop_take_all_digits hmem 2 2),
      pyIntHex_all_digits (take_two_ne_nil (by omega))
        (drop_take_all_digits hmem 4 2)]
  · intro h8 hall
    have hmem : ∀ c ∈ h, isHexDigit c = true := List.all_eq_true.mp hall
    have htk : h.take 2 = (h.drop 0).take 2 := by rw [List.drop_zero]
    simp only [hex_to_rgba]
    rw [hs, if_pos h8,
      pyIntHex_all_digits (htk ▸ take_two_ne_nil (by omega))
        (take_all_digits hmem 2),
      pyIntHex_all_digits (take_two_ne_nil (by omega))
        (drop_take_all_digits hmem 2 2),
      pyIntHex_all_digits (take_two_ne_nil (by omega))
        (drop_take_all_digits hmem 4 2),
      pyIntHex_all_digits (take_two_ne_nil (by omega))
        (drop_take_all_digits hmem 6 2)]
  · intro h6 h8
    simp only [hex_to_rgba]
    rw [hs, if_neg h8, if_neg h6]

/-- Witness for C6 at a concrete input: `"#2aF0b3"` has six hexadecimal
digits after the `#` and parses to `(42, 240, 179, 255)`. -/
theorem hex_to_rgba_length_dispatch_witness :
    hex_to_rgba ['#', '2', 'a', 'F', '0', 'b', '3'] = some ⟨42, 240, 179, 255⟩ :=
  ((hex_to_rgba_length_dispatch ['#', '2', 'a', 'F', '0', 'b', '3']
      ['2', 'a', 'F', '0', 'b', '3'] (by decide)).1 (by decide)
    (by decide)).trans (by decide)

/-- C9 as stated is false in its "only if" direction: Python's
`int(s, 16)` also accepts a sign (and surrounding whitespace), so the
length-6 string `"+f0000"` — which does not consist of hexadecimal digits
only — still succeeds, yielding `(15, 0, 0, 255)`. -/
theorem hex_to_rgba_succeeds_not_all_hexdigits :
    (hex_to_rgba ['+', 'f', '0', '0', '0', '0']).isSome = true ∧
      ¬((['+', 'f', '0', '0', '0', '0'].dropWhile (fun c => c = '#')).all
          isHexDigit = true) := by
  decide

/-- C9 (amended) — 6 or 8 characters after stripping `#` is not
sufficient for success; `hex_to_rgba` succeeds if and only if the
stripped string has length exactly 6 or exactly 8 and each of its
2-character slices is accepted by Python's `int(·, 16)` (which, beyond
plain hexadecimal digit pairs, also tolerates a sign or whitespace
before a single digit). -/
theorem hex_to_rgba_success_iff (s h : List Char)
    (hs : s.dropWhile (fun c => c = '#') = h) :
    (hex_to_rgba s).isSome = true ↔
      ((h.length = 6 ∨ h.length = 8) ∧
        (pyIntHex (h.take 2)).isSome = true ∧
        (pyIntHex ((h.drop 2).take 2)).isSome = true ∧
        (pyIntHex ((h.drop 4).take 2)).isSome = true ∧
        (h.length = 8 → (pyIntHex ((h.drop 6).take 2)).isSome = true)) := by
  simp only [hex_to_rgba]
  rw [hs]
  by_cases h8 : h.length = 8
  · rw [if_pos h8]
    have h6 : h.length ≠ 6 := by omega
    cases hr : pyIntHex (h.take 2) <;>
      cases hg : pyIntHex ((h.drop 2).take 2) <;>
        cases hb : pyIntHex ((h.drop 4).take 2) <;>
          cases ha : pyIntHex ((h.drop 6).take 2) <;>
            simp [h8, h6]
  · rw [if_neg h8]
    by_cases h6 : h.length = 6
    · rw [if_pos h6]
      cases hr : pyIntHex (h.take 2) <;>
        cases hg : pyIntHex ((h.drop 2).take 2) <;>
          cases hb : pyIntHex ((h.drop 4).take 2) <;>
            simp [h8, h6]
    · rw [if_neg h6]
      simp [h8, h6]

/-- Witness for the amended C9 at a concrete input: `"ff0042"` satisfies
the right-hand side, so parsing succeeds. -/
theorem hex_to_rgba_success_iff_witness :
    (hex_to_rgba ['f', 'f', '0', '0', '4', '2']).isSome = true :=
  (hex_to_rgba_success_iff ['f', 'f', '0', '0', '4', '2']
    ['f', 'f', '0', '0', '4', '2'] (by decide)).mpr (by decide)

/-- Fully transparent RGBA, the `(0, 0, 0, 0)` of the code. -/
def transparent : RGBA := ⟨0, 0, 0, 0⟩

/-- Error modes of the rasterizers: `badHex` models the `ValueError` from
`hex_to_rgba`, `oob` the `IndexError` from an out-of-bounds PIL pixel
write, `emptyFrames` the `StopIteration` from
`next(iter(frames.values()))` on an empty frame mapping. -/
inductive RErr where
  | badHex : RErr
  | oob : RErr
  | emptyFrames : RErr
deriving DecidableEq

/-- Result of a Python computation that may raise. -/
inductive Res (α : Type) where
  | ok : α → Res α
  | err : RErr → Res α
deriving DecidableEq

/-- An RGBA raster: `px` is `height` rows of `width` pixels,
addressed `px[y][x]` with top-left origin, as PIL exposes it. -/
structure Image where
  width : Nat
  height : Nat
  px : List (List RGBA)
deriving DecidableEq

/-- `Image.new('RGBA', (w, h), (0, 0, 0, 0))`. -/
def Image.new (w h : Nat) : Image :=
  ⟨w, h, List.replicate h (List.replicate w transparent)⟩

/-- Read pixel `(x, y)`; out of range reads give the transparent default
(only in-bounds reads are ever relied on). -/
def Image.getPixel (img : Image) (x y : Nat) : RGBA :=
  (img.px.getD y []).getD x transparent

/-- `pixels[x, y] = c`: PIL raises `IndexError` outside the image. -/
def Image.setPixel (img : Image) (x y : Nat) (c : RGBA) : Res Image :=
  if x < img.width ∧ y < img.height then
    .ok ⟨img.width, img.height, img.px.set y ((img.px.getD y []).set x c)⟩
  else .err .oob

/-- The raster list really has the advertised shape. -/
def Image.WF (img : Image) : Prop :=
  img.px.length = img.height ∧ ∀ r ∈ img.px, r.length = img.width

/-- First-match association-list lookup, the model of Python dict
indexing/membership used for `color_map` and `frames` (dict keys are
unique, so first match is the match). -/
def alistGet {κ β : Type} [DecidableEq κ] (m : List (κ × β)) (k : κ) : Option β :=
  match m with
  | [] => none
  | (a, b) :: rest => if k = a then some b else alistGet rest k

/-- Per-character color resolution of `ascii_to_image`:
`if char in color_map: hex_to_rgba(color_map[char]) else (0, 0, 0, 0)`. -/
def colorFor (cmap : List (Char × List Char)) (ch : Char) : Res RGBA :=
  match alistGet cmap ch with
  | some hx =>
    match hex_to_rgba hx with
    | some c => .ok c
    | none => .err .badHex
  | none => .ok transparent

/-- The color `colorFor` produces when it succeeds. -/
def colorVal (cmap : List (Char × List Char)) (ch : Char) : RGBA :=
  match colorFor cmap ch with
  | .ok c => c
  | .err _ => transparent

/-- The inner `for x, char in enumerate(line)` loop of `ascii_to_image`,
writing row `y` from column `x` on. -/
def writeRow (cmap : List (Char × List Char)) (y : Nat) :
    List Char → Nat → Image → Res Image
  | [], _, img => .ok img
  | ch :: rest, x, img =>
    match colorFor cmap ch with
    | .err e => .err e
    | .ok c =>
      match img.setPixel x y c with
      | .err e => .err e
      | .ok img2 => writeRow cmap y rest (x + 1) img2

/-- The outer `for y, line in enumerate(ascii_lines)` loop. -/
def writeRows (cmap : List (Char × List Char)) :
    List (List Char) → Nat → Image → Res Image
  | [], _, img => .ok img
  | line :: rest, y, img =>
    match writeRow cmap y line 0 img with
    | .err e => .err e
    | .ok img2 => writeRows cmap rest (y + 1) img2

/-- `ascii_to_image` of ascii_to_sprite.py (and of
convert_single_frame.py at scale 1): `height = len(ascii_lines)`,
`width = len(ascii_lines[0]) if ascii_lines else 0`, new transparent
RGBA image, then write every character's resolved color. -/
def ascii_to_image (lines : List (List Char))
    (cmap : List (Char × List Char)) : Res Image :=
  writeRows cmap lines 0 (Image.new (lines.headD []).length lines.length)

/-- Models PIL `Image.resize((w*s, h*s), Image.NEAREST)` for the exact
integer upscale used by the code: destination pixel `(x, y)` samples the
source pixel `(x / s, y / s)`, replicating each source pixel into an
`s × s` block. -/
def resizeNearest (img : Image) (s : Nat) : Image :=
  ⟨img.width * s, img.height * s,
    (List.range (img.height * s)).map (fun y =>
      (List.range (img.width * s)).map (fun x => img.getPixel (x / s) (y / s)))⟩

/-- `ascii_to_image` of convert_single_frame.py with its `scale`
parameter: rasterize, then `img.resize((width*scale, height*scale),
Image.NEAREST)` only when `scale > 1`. -/
def ascii_to_image_scaled (lines : List (List Char))
    (cmap : List (Char × List Char)) (scale : Nat) : Res Image :=
  match ascii_to_image lines cmap with
  | .err e => .err e
  | .ok img => .ok (if scale > 1 then resizeNearest img scale else img)

lemma new_WF (w h : Nat) : (Image.new w h).WF := by
  constructor
  · simp [Image.new]
  · intro r hr
    rw [List.eq_of_mem_replicate hr]
    simp [Image.new]

lemma getPixel_new (w h x y : Nat) : (Image.new w h).getPixel x y = transparent := by
  unfold Image.new Image.getPixel
  by_cases hy : y < h <;> by_cases hx : x < w <;>
    simp [List.getD_eq_getElem?_getD, List.getElem?_replicate, hy, hx]

lemma getD_mem_of_lt {α : Type} {l : List α} {n : Nat} {d : α}
    (h : n < l.length) : l.getD n d ∈ l := by
  rw [List.getD_eq_getElem?_getD, List.getElem?_eq_getElem h]
  simp

lemma setPixel_ok (img : Image) (x y : Nat) (c : RGBA) (hWF : img.WF)
    (hx : x < img.width) (hy : y < img.height) :
    ∃ img2, img.setPixel x y c = .ok img2 ∧ img2.WF ∧
      img2.width = img.width ∧ img2.height = img.height ∧
      ∀ x' y', img2.getPixel x' y' =
        if x' = x ∧ y' = y then c else img.getPixel x' y' := by
  obtain ⟨hlen, hrows⟩ := hWF
  have hylen : y < img.px.length := by omega
  have hrowlen : (img.px.getD y []).length = img.width :=
    hrows _ (getD_mem_of_lt hylen)
  have hrowy : ∀ y', (img.px.set y ((img.px.getD y []).set x c)).getD y' [] =
      if y' = y then (img.px.getD y []).set x c else img.px.getD y' [] := by
    intro y'
    by_cases hy' : y' = y
    · subst hy'
      rw [if_pos rfl,
        List.getD_eq_getElem?_getD (l := img.px.set y' ((img.px.getD y' []).set x c)),
        List.getElem?_set_self hylen, Option.getD_some]
    · rw [if_neg hy',
        List.getD_eq_getElem?_getD (l := img.px.set y ((img.px.getD y []).set x c)),
        List.getElem?_set_ne (fun hh => hy' hh.symm), ← List.getD_eq_getElem?_getD]
  refine ⟨⟨img.width, img.height, img.px.set y ((img.px.getD y []).set x c)⟩,
    ?_, ⟨?_, ?_⟩, rfl, rfl, ?_⟩
  · rw [Image.setPixel, if_pos ⟨hx, hy⟩]
  · show (img.px.set y ((img.px.getD y []).set x c)).length = img.height
    simp [List.length_set, hlen]
  · intro r hr
    show r.length = img.width
    have hr' : r ∈ img.px.set y ((img.px.getD y []).set x c) := hr
    rcases List.mem_or_eq_of_mem_set hr' with hmem | heq
    · exact hrows r hmem
    · rw [heq, List.length_set]
      exact hrowlen
  · intro x' y'
    show ((img.px.set y ((img.px.getD y []).set x c)).getD y' []).getD x'
        transparent = _
    rw [hrowy y']
    by_cases hy' : y' = y
    · subst hy'
      rw [if_pos rfl]
      by_cases hx' : x' = x
      · subst hx'
        rw [if_pos ⟨rfl, rfl⟩, List.getD_eq_getElem?_getD,
          List.getElem?_set_self (by omega), Option.getD_some]
      · rw [if_neg (by tauto), List.getD_eq_getElem?_getD,
          List.getElem?_set_ne (fun hh => hx' hh.symm), ← List.getD_eq_getElem?_getD]
        rfl
    · rw [if_neg hy', if_neg (by tauto)]
      rfl

lemma colorVal_of_ok {cmap : List (Char × List Char)} {ch : Char} {v : RGBA}
    (h : colorFor cmap ch = .ok v) : colorVal cmap ch = v := by
  unfold colorVal
  rw [h]

lemma writeRow_ok (cmap : List (Char × List Char)) (y : Nat) :
    ∀ (line : List Char) (x : Nat) (img : Image), img.WF → y < img.height →
      x + line.length ≤ img.width →
      (∀ ch ∈ line, ∃ v, colorFor cmap ch = Res.ok v) →
      ∃ img2, writeRow cmap y line x img = .ok img2 ∧ img2.WF ∧
        img2.width = img.width ∧ img2.height = img.height ∧
        ∀ x' y', img2.getPixel x' y' =
          if y' = y ∧ x ≤ x' ∧ x' < x + line.length
          then colorVal cmap (line.getD (x' - x) ' ')
          else img.getPixel x' y' := by
  intro line
  induction line with
  | nil =>
    intro x img hWF hy hxw hcol
    refine ⟨img, rfl, hWF, rfl, rfl, ?_⟩
    intro x' y'
    rw [if_neg (by rintro ⟨-, h1, h2⟩; simp only [List.length_nil] at h2; omega)]
  | cons ch rest ih =>
    intro x img hWF hy hxw hcol
    obtain ⟨v, hv⟩ := hcol ch (List.mem_cons_self ch rest)
    obtain ⟨img1, hset, hWF1, hw1, hh1, hpx1⟩ :=
      setPixel_ok img x y v hWF
        (by simp only [List.length_cons] at hxw; omega) hy
    have hrun : writeRow cmap y (ch :: rest) x img =
        writeRow cmap y rest (x + 1) img1 := by
      simp only [writeRow, hv, hset]
    obtain ⟨img2, hrun2, hWF2, hw2, hh2, hpx2⟩ :=
      ih (x + 1) img1 hWF1 (by rw [hh1]; exact hy)
        (by rw [hw1]; simp only [List.length_cons] at hxw; omega)
        (fun c hc => hcol c (List.mem_cons_of_mem ch hc))
    refine ⟨img2, by rw [hrun, hrun2], hWF2, by rw [hw2, hw1],
      by rw [hh2, hh1], ?_⟩
    intro x' y'
    rw [hpx2 x' y', hpx1 x' y']
    by_cases hy' : y' = y
    · simp only [List.length_cons]
      subst hy'
      by_cases h1 : x + 1 ≤ x' ∧ x' < x + 1 + rest.length
      · rw [if_pos ⟨rfl, h1⟩, if_pos ⟨rfl, by omega, by omega⟩]
        have hidx : x' - x = (x' - (x + 1)) + 1 := by omega
        rw [hidx, List.getD_cons_succ]
      · rw [if_neg (by tauto)]
        by_cases h2 : x' = x
        · subst h2
          rw [if_pos ⟨rfl, rfl⟩, if_pos ⟨rfl, Nat.le_refl _, by omega⟩,
            Nat.sub_self, List.getD_cons_zero]
          exact (colorVal_of_ok hv).symm
        · rw [if_neg (fun hc => h2 hc.1),
            if_neg (by rintro ⟨-, ha, hb⟩; omega)]
    · rw [if_neg (by tauto), if_neg (by tauto), if_neg (by tauto)]

lemma writeRows_ok (cmap : List (Char × List Char)) :
    ∀ (rows : List (List Char)) (y : Nat) (img : Image), img.WF →
      y + rows.length ≤ img.height →
      (∀ line ∈ rows, line.length ≤ img.width ∧
        ∀ ch ∈ line, ∃ v, colorFor cmap ch = Res.ok v) →
      ∃ img2, writeRows cmap rows y img = .ok img2 ∧ img2.WF ∧
        img2.width = img.width ∧ img2.height = img.height ∧
        ∀ x' y', img2.getPixel x' y' =
          if y ≤ y' ∧ y' < y + rows.length ∧
              x' < (rows.getD (y' - y) []).length
          then colorVal cmap ((rows.getD (y' - y) []).getD x' ' ')
          else img.getPixel x' y' := by
  intro rows
  induction rows with
  | nil =>
    intro y img hWF hyh hlines
    refine ⟨img, rfl, hWF, rfl, rfl, ?_⟩
    intro x' y'
    rw [if_neg (by rintro ⟨h1, h2, -⟩; simp only [List.length_nil] at h2; omega)]
  | cons line rest ih =>
    intro y img hWF hyh hlines
    obtain ⟨hlen, hcol⟩ := hlines line (List.mem_cons_self line rest)
    obtain ⟨img1, hrow, hWF1, hw1, hh1, hpx1⟩ :=
      writeRow_ok cmap y line 0 img hWF
        (by simp only [List.length_cons] at hyh; omega) (by simpa using hlen) hcol
    have hrun : writeRows cmap (line :: rest) y img =
        writeRows cmap rest (y + 1) img1 := by
      simp only [writeRows, hrow]
    obtain ⟨img2, hrun2, hWF2, hw2, hh2, hpx2⟩ :=
      ih (y + 1) img1 hWF1
        (by rw [hh1]; simp only [List.length_cons] at hyh; omega)
        (fun l hl => by
          rw [hw1]
          exact hlines l (List.mem_cons_of_mem line hl))
    refine ⟨img2, by rw [hrun, hrun2], hWF2, by rw [hw2, hw1],
      by rw [hh2, hh1], ?_⟩
    intro x' y'
    rw [hpx2 x' y', hpx1 x' y']
    simp only [List.length_cons]
    by_cases hy' : y' = y
    · subst hy'
      rw [Nat.sub_self, List.getD_cons_zero]
      by_cases hx1 : x' < line.length
      · rw [if_neg (by rintro ⟨ha, -, -⟩; omega),
          if_pos ⟨rfl, by omega, by omega⟩,
          if_pos ⟨Nat.le_refl _, by omega, hx1⟩, Nat.sub_zero]
      · rw [if_neg (by rintro ⟨ha, -, -⟩; omega),
          if_neg (by rintro ⟨-, -, hc⟩; omega),
          if_neg (by rintro ⟨-, -, hc⟩; exact hx1 hc)]
    · by_cases hy2 : y + 1 ≤ y' ∧ y' < y + 1 + rest.length
      · have hidx : y' - y = (y' - (y + 1)) + 1 := by omega
        rw [hidx, List.getD_cons_succ]
        by_cases hx2 : x' < (rest.getD (y' - (y + 1)) []).length
        · rw [if_pos ⟨by omega, by omega, hx2⟩,
            if_pos ⟨by omega, by omega, hx2⟩]
        · rw [if_neg (by rintro ⟨-, -, hc⟩; exact hx2 hc),
            if_neg (by tauto),
            if_neg (by rintro ⟨-, -, hc⟩; exact hx2 hc)]
      · rw [if_neg (by rintro ⟨h1, h2, -⟩; exact hy2 ⟨h1, h2⟩),
          if_neg (by tauto),
          if_neg (by rintro ⟨h1, h2, -⟩; exact hy2 ⟨by omega, by omega⟩)]

lemma alistGet_mem {κ β : Type} [DecidableEq κ] {m : List (κ × β)} {k : κ}
    {b : β} (h : alistGet m k = some b) : (k, b) ∈ m := by
  induction m with
  | nil => simp [alistGet] at h
  | cons p rest ih =>
    obtain ⟨a, v⟩ := p
    simp only [alistGet] at h
    by_cases hk : k = a
    · rw [if_pos hk] at h
      injection h with h
      rw [hk, h]
      exact List.mem_cons_self _ _
    · rw [if_neg hk] at h
      exact List.mem_cons_of_mem _ (ih h)

lemma colorFor_ok_of {cmap : List (Char × List Char)}
    (hcmap : ∀ p ∈ cmap, (hex_to_rgba p.2).isSome = true) (ch : Char) :
    ∃ v, colorFor cmap ch = Res.ok v := by
  cases hget : alistGet cmap ch with
  | none => exact ⟨transparent, by simp only [colorFor, hget]⟩
  | some hx =>
    have hsome : (hex_to_rgba hx).isSome = true := hcmap (ch, hx) (alistGet_mem hget)
    obtain ⟨v, hv⟩ := Option.isSome_iff_exists.mp hsome
    exact ⟨v, by simp only [colorFor, hget, hv]⟩

lemma ascii_to_image_ok (lines : List (List Char))
    (cmap : List (Char × List Char))
    (hrows : ∀ l ∈ lines, l.length ≤ (lines.headD []).length)
    (hcmap : ∀ p ∈ cmap, (hex_to_rgba p.2).isSome = true) :
    ∃ img, ascii_to_image lines cmap = Res.ok img ∧ img.WF ∧
      img.width = (lines.headD []).length ∧ img.height = lines.length ∧
      ∀ x y, img.getPixel x y =
        if y < lines.length ∧ x < (lines.getD y []).length
        then colorVal cmap ((lines.getD y []).getD x ' ')
        else transparent := by
  obtain ⟨img2, hrun, hWF2, hw2, hh2, hpx2⟩ :=
    writeRows_ok cmap lines 0 (Image.new (lines.headD []).length lines.length)
      (new_WF _ _) (by simp [Image.new])
      (fun l hl => ⟨hrows l hl, fun ch _ => colorFor_ok_of hcmap ch⟩)
  refine ⟨img2, hrun, hWF2, hw2, hh2, ?_⟩
  intro x y
  rw [hpx2 x y]
  simp only [Nat.zero_le, true_and, Nat.zero_add, Nat.sub_zero]
  by_cases hcond : y < lines.length ∧ x < (lines.getD y []).length
  · rw [if_pos hcond, if_pos hcond]
  · rw [if_neg hcond, if_neg hcond, getPixel_new]

/-- C3 — At scale 1, rasterization sets pixel `(col, row)` to the color
table's parsed RGBA value of the character at `(row, col)` when the
character is a key of the table, and to fully transparent `(0,0,0,0)`
when it is not; unknown characters cause no error (the rasterization
succeeds on the whole frame even though it may contain them). -/
theorem ascii_to_image_color (lines : List (List Char))
    (cmap : List (Char × List Char)) (H W : Nat)
    (hH : lines.length = H) (hrowsW : ∀ l ∈ lines, l.length = W)
    (hcmap : ∀ p ∈ cmap, (hex_to_rgba p.2).isSome = true) :
    ∃ img, ascii_to_image lines cmap = Res.ok img ∧
      ∀ row col, row < H → col < W →
        ((∀ hx c, alistGet cmap ((lines.getD row []).getD col ' ') = some hx →
            hex_to_rgba hx = some c → img.getPixel col row = c) ∧
          (alistGet cmap ((lines.getD row []).getD col ' ') = none →
            img.getPixel col row = transparent)) := by
  have hrows : ∀ l ∈ lines, l.length ≤ (lines.headD []).length := by
    intro l hl
    rw [hrowsW l hl]
    cases lines with
    | nil => simp at hl
    | cons a t =>
      rw [List.headD_cons, hrowsW a (List.mem_cons_self a t)]
  obtain ⟨img, hok, hWF, hw, hh, hpx⟩ := ascii_to_image_ok lines cmap hrows hcmap
  refine ⟨img, hok, ?_⟩
  intro row col hrow hcol
  have hrowlt : row < lines.length := by omega
  have hlenrow : (lines.getD row []).length = W :=
    hrowsW _ (getD_mem_of_lt hrowlt)
  have hgp : img.getPixel col row =
      colorVal cmap ((lines.getD row []).getD col ' ') := by
    rw [hpx col row, if_pos ⟨hrowlt, by omega⟩]
  constructor
  · intro hx c hget hhex
    rw [hgp]
    simp only [colorVal, colorFor, hget, hhex]
  · intro hget
    rw [hgp]
    simp only [colorVal, colorFor, hget]

/-- Witness for C3 at a concrete input: the frame `["@x"]` with color
table `{'@': "ff0000"}` rasterizes with pixel (0,0) opaque red and the
unknown character `x` giving a transparent pixel (1,0). -/
theorem ascii_to_image_color_witness : ∃ img,
    ascii_to_image [['@', 'x']] [('@', ['f', 'f', '0', '0', '0', '0'])] =
      Res.ok img ∧
      img.getPixel 0 0 = ⟨255, 0, 0, 255⟩ ∧ img.getPixel 1 0 = transparent := by
  obtain ⟨img, hok, hpx⟩ :=
    ascii_to_image_color [['@', 'x']] [('@', ['f', 'f', '0', '0', '0', '0'])]
      1 2 (by decide) (by decide) (by decide)
  refine ⟨img, hok, ?_, ?_⟩
  · exact (hpx 0 0 (by decide) (by decide)).1 ['f', 'f', '0', '0', '0', '0']
      ⟨255, 0, 0, 255⟩ (by decide) (by decide)
  · exact (hpx 0 1 (by decide) (by decide)).2 (by decide)

/-- C10 — `ascii_to_image` on the empty sequence of lines raises no
error: width and height both compute to 0 and a 0×0 RGBA image is
returned. -/
theorem ascii_to_image_empty (cmap : List (Char × List Char)) :
    ascii_to_image [] cmap = Res.ok (Image.new 0 0) ∧
      (Image.new 0 0).width = 0 ∧ (Image.new 0 0).height = 0 :=
  ⟨rfl, rfl, rfl⟩

lemma colorFor_err_badHex {cmap : List (Char × List Char)} {ch : Char}
    {e : RErr} (h : colorFor cmap ch = Res.err e) : e = RErr.badHex := by
  unfold colorFor at h
  cases hget : alistGet cmap ch with
  | none =>
    rw [hget] at h
    simp at h
  | some hx =>
    rw [hget] at h
    cases hhex : hex_to_rgba hx with
    | none =>
      simp only [hhex] at h
      injection h with h
      exact h.symm
    | some c =>
      simp only [hhex] at h
      cases h

lemma writeRow_no_oob (cmap : List (Char × List Char)) (y : Nat) :
    ∀ (line : List Char) (x : Nat) (img : Image), img.WF → y < img.height →
      x + line.length ≤ img.width →
      (∃ img2, writeRow cmap y line x img = .ok img2 ∧ img2.WF ∧
        img2.width = img.width ∧ img2.height = img.height) ∨
      writeRow cmap y line x img = .err .badHex := by
  intro line
  induction line with
  | nil =>
    intro x img hWF hy hxw
    exact Or.inl ⟨img, rfl, hWF, rfl, rfl⟩
  | cons ch rest ih =>
    intro x img hWF hy hxw
    cases hcf : colorFor cmap ch with
    | err e =>
      right
      rw [colorFor_err_badHex hcf] at hcf
      simp only [writeRow, hcf]
    | ok v =>
      obtain ⟨img1, hset, hWF1, hw1, hh1, hpx1⟩ :=
        setPixel_ok img x y v hWF
          (by simp only [List.length_cons] at hxw; omega) hy
      have hrun : writeRow cmap y (ch :: rest) x img =
          writeRow cmap y rest (x + 1) img1 := by
        simp only [writeRow, hcf, hset]
      rcases ih (x + 1) img1 hWF1 (by rw [hh1]; exact hy)
          (by rw [hw1]; simp only [List.length_cons] at hxw; omega) with
        ⟨img2, h2, hWF2, hw2, hh2⟩ | hbad
      · exact Or.inl ⟨img2, by rw [hrun, h2], hWF2, by rw [hw2, hw1],
          by rw [hh2, hh1]⟩
      · exact Or.inr (by rw [hrun, hbad])

lemma writeRows_no_oob (cmap : List (Char × List Char)) :
    ∀ (rows : List (List Char)) (y : Nat) (img : Image), img.WF →
      y + rows.length ≤ img.height → (∀ l ∈ rows, l.length ≤ img.width) →
      (∃ img2, writeRows cmap rows y img = .ok img2) ∨
      writeRows cmap rows y img = .err .badHex := by
  intro rows
  induction rows with
  | nil =>
    intro y img hWF hyh hlens
    exact Or.inl ⟨img, rfl⟩
  | cons line rest ih =>
    intro y img hWF hyh hlens
    rcases writeRow_no_oob cmap y line 0 img hWF
        (by simp only [List.length_cons] at hyh; omega)
        (by simpa using hlens line (List.mem_cons_self line rest)) with
      ⟨img1, h1, hWF1, hw1, hh1⟩ | hbad
    · have hrun : writeRows cmap (line :: rest) y img =
          writeRows cmap rest (y + 1) img1 := by
        simp only [writeRows, h1]
      rcases ih (y + 1) img1 hWF1
          (by rw [hh1]; simp only [List.length_cons] at hyh; omega)
          (fun l hl => by
            rw [hw1]
            exact hlens l (List.mem_cons_of_mem line hl)) with
        ⟨img2, h2⟩ | hbad2
      · exact Or.inl ⟨img2, by rw [hrun, h2]⟩
      · exact Or.inr (by rw [hrun, hbad2])
    · exact Or.inr (by simp only [writeRows, hbad])

/-- C8 — `ascii_to_image` derives the width from the first line only;
whenever every line is at most as long as the first, no pixel write is
out of bounds (the result is never the out-of-bounds error), and for the
non-canonical input `["a", "bb"]`, whose second line is longer than the
first, a pixel write does fall outside the 1×2 image. -/
theorem ascii_to_image_bounds :
    (∀ (lines : List (List Char)) (cmap : List (Char × List Char)),
        (∀ l ∈ lines, l.length ≤ (lines.headD []).length) →
        ascii_to_image lines cmap ≠ Res.err RErr.oob) ∧
      ascii_to_image [['a'], ['b', 'b']] [] = Res.err RErr.oob := by
  constructor
  · intro lines cmap hrows
    unfold ascii_to_image
    rcases writeRows_no_oob cmap lines 0
        (Image.new (lines.headD []).length lines.length) (new_WF _ _)
        (by simp [Image.new]) (fun l hl => hrows l hl) with ⟨img2, h2⟩ | hbad
    · rw [h2]
      intro hc
      cases hc
    · rw [hbad]
      intro hc
      injection hc with hc
      cases hc
  · decide

lemma resizeNearest_pixel (img : Image) (s x y : Nat)
    (hx : x < img.width * s) (hy : y < img.height * s) :
    (resizeNearest img s).getPixel x y = img.getPixel (x / s) (y / s) := by
  unfold resizeNearest Image.getPixel
  simp [List.getD_eq_getElem?_getD, List.getElem?_map, List.getElem?_range,
    hx, hy, Image.getPixel]

/-- C5 — Rasterizing a canonical H×W frame at integer scale s ≥ 1 yields
an image of dimensions (W·s, H·s) whose pixel (x, y) equals the unscaled
rasterization's pixel (x / s, y / s): every source pixel is replicated
into an s×s block with no blending. -/
theorem ascii_to_image_scaled_nearest (lines : List (List Char))
    (cmap : List (Char × List Char)) (H W s : Nat)
    (hH : lines.length = H) (hW : (lines.headD []).length = W)
    (hrowsW : ∀ l ∈ lines, l.length = W)
    (hcmap : ∀ p ∈ cmap, (hex_to_rgba p.2).isSome = true) (hs : 1 ≤ s) :
    ∃ base img, ascii_to_image lines cmap = Res.ok base ∧
      ascii_to_image_scaled lines cmap s = Res.ok img ∧
      img.width = W * s ∧ img.height = H * s ∧
      ∀ x y, x < W * s → y < H * s →
        img.getPixel x y = base.getPixel (x / s) (y / s) := by
  have hrows : ∀ l ∈ lines, l.length ≤ (lines.headD []).length := fun l hl => by
    rw [hrowsW l hl, hW]
  obtain ⟨base, hok, hWF, hw, hh, hpx⟩ := ascii_to_image_ok lines cmap hrows hcmap
  have hbw : base.width = W := by rw [hw, hW]
  have hbh : base.height = H := by rw [hh, hH]
  by_cases h1 : s > 1
  · refine ⟨base, resizeNearest base s, hok, ?_, ?_, ?_, ?_⟩
    · simp only [ascii_to_image_scaled, hok]
      rw [if_pos h1]
    · show base.width * s = W * s
      rw [hbw]
    · show base.height * s = H * s
      rw [hbh]
    · intro x y hxlt hylt
      exact resizeNearest_pixel base s x y (by rw [hbw]; exact hxlt)
        (by rw [hbh]; exact hylt)
  · have hs1 : s = 1 := by omega
    subst hs1
    refine ⟨base, base, hok, ?_, by rw [hbw, Nat.mul_one],
      by rw [hbh, Nat.mul_one], ?_⟩
    · simp only [ascii_to_image_scaled, hok]
      rw [if_neg h1]
    · intro x y hx hy
      rw [Nat.div_one, Nat.div_one]

/-- Witness for C5 at a concrete input: the 1×1 frame `["@"]` at scale 3
gives a 3×3 image whose pixel (2, 1) equals the unscaled pixel (0, 0),
which is opaque red. -/
theorem ascii_to_image_scaled_nearest_witness : ∃ base img,
    ascii_to_image [['@']] [('@', ['f', 'f', '0', '0', '0', '0'])] =
      Res.ok base ∧
    ascii_to_image_scaled [['@']] [('@', ['f', 'f', '0', '0', '0', '0'])] 3 =
      Res.ok img ∧
    img.width = 3 ∧ img.height = 3 ∧ img.getPixel 2 1 = base.getPixel 0 0 := by
  obtain ⟨base, img, hok, hok2, hwidth, hheight, hpx⟩ :=
    ascii_to_image_scaled_nearest [['@']] [('@', ['f', 'f', '0', '0', '0', '0'])]
      1 1 3 (by decide) (by decide) (by decide) (by decide) (by decide)
  exact ⟨base, img, hok, hok2, by rw [hwidth], by rw [hheight],
    by have := hpx 2 1 (by decide) (by decide); simpa using this⟩

/-- PIL `sheet.paste(fimg, (ox, oy))`: direct overwrite of the region
(including alpha), clipped to the sheet. -/
def Image.paste (sheet fimg : Image) (ox oy : Nat) : Image :=
  ⟨sheet.width, sheet.height,
    (List.range sheet.height).map (fun Y =>
      (List.range sheet.width).map (fun X =>
        if ox ≤ X ∧ X < ox + fimg.width ∧ oy ≤ Y ∧ Y < oy + fimg.height
        then fimg.getPixel (X - ox) (Y - oy)
        else sheet.getPixel X Y))⟩

/-- The `if scale > 1: frame_img = frame_img.resize(..., Image.NEAREST)`
step shared by both rasterizing call sites. -/
def scaleIfNeeded (img : Image) (scale : Nat) : Image :=
  if scale > 1 then resizeNearest img scale else img

/-- The fixed `frame_layout` constant of `create_sprite_sheet`
(ascii_to_sprite.py lines 69-75): 4 walk rows and 1 idle row of 4 slots. -/
def frame_layout : List (List String) :=
  [["walk_down_0", "walk_down_1", "walk_down_2", "walk_down_3"],
   ["walk_up_0", "walk_up_1", "walk_up_2", "walk_up_3"],
   ["walk_left_0", "walk_left_1", "walk_left_2", "walk_left_3"],
   ["walk_right_0", "walk_right_1", "walk_right_2", "walk_right_3"],
   ["idle_down_0", "idle_up_0", "idle_left_0", "idle_right_0"]]

/-- Inner placement loop of `create_sprite_sheet`: one layout row
(`for col_idx, frame_name in enumerate(row)`), pasting each named frame
that exists at `(col_idx * fw * scale, row_idx * fh * scale)`. -/
def placeRow (cmap : List (Char × List Char))
    (frames : List (String × List (List Char))) (fw fh scale row_idx : Nat) :
    List String → Nat → Image → Res Image
  | [], _, sheet => .ok sheet
  | name :: rest, col_idx, sheet =>
    match alistGet frames name with
    | none => placeRow cmap frames fw fh scale row_idx rest (col_idx + 1) sheet
    | some f =>
      match ascii_to_image f cmap with
      | .err e => .err e
      | .ok fimg =>
        placeRow cmap frames fw fh scale row_idx rest (col_idx + 1)
          (sheet.paste (scaleIfNeeded fimg scale)
            (col_idx * fw * scale) (row_idx * fh * scale))

/-- Outer placement loop (`for row_idx, row in enumerate(frame_layout)`). -/
def placeRows (cmap : List (Char × List Char))
    (frames : List (String × List (List Char))) (fw fh scale : Nat) :
    List (List String) → Nat → Image → Res Image
  | [], _, sheet => .ok sheet
  | row :: rest, row_idx, sheet =>
    match placeRow cmap frames fw fh scale row_idx row 0 sheet with
    | .err e => .err e
    | .ok sheet2 => placeRows cmap frames fw fh scale rest (row_idx + 1) sheet2

/-- `create_sprite_sheet` of ascii_to_sprite.py. Frame size comes from
the first frame of `frames` (`next(iter(frames.values()))`, which raises
on an empty mapping — modelled as `.err .emptyFrames`). The source
hardcodes `cols = 4` together with its fixed 4-wide `frame_layout`;
following the spec's caller-supplied layout, the layout is a parameter
here and `cols` is the width of its first row (4 for `frame_layout`). -/
def create_sprite_sheet (layout : List (List String))
    (frames : List (String × List (List Char)))
    (cmap : List (Char × List Char)) (scale : Nat) : Res Image :=
  match frames with
  | [] => .err .emptyFrames
  | (_, first_frame) :: _ =>
    let frame_height := first_frame.length
    let frame_width := (first_frame.headD []).length
    let cols := (layout.headD []).length
    let rows := layout.length
    placeRows cmap frames frame_width frame_height scale layout 0
      (Image.new (cols * frame_width * scale) (rows * frame_height * scale))

/-- `(X, Y)` lies in the `w × h` block at offset `(ox, oy)`. -/
abbrev inRegion (ox oy w h X Y : Nat) : Prop :=
  ox ≤ X ∧ X < ox + w ∧ oy ≤ Y ∧ Y < oy + h

lemma paste_getPixel (sheet fimg : Image) (ox oy X Y : Nat)
    (hX : X < sheet.width) (hY : Y < sheet.height) :
    (sheet.paste fimg ox oy).getPixel X Y =
      if ox ≤ X ∧ X < ox + fimg.width ∧ oy ≤ Y ∧ Y < oy + fimg.height
      then fimg.getPixel (X - ox) (Y - oy)
      else sheet.getPixel X Y := by
  show ((((List.range sheet.height).map _).getD Y []).getD X transparent) = _
  simp [List.getD_eq_getElem?_getD, List.getElem?_map, List.getElem?_range,
    hX, hY]

lemma paste_WF (sheet fimg : Image) (ox oy : Nat) :
    (sheet.paste fimg ox oy).WF := by
  constructor
  · simp [Image.paste]
  · intro r hr
    simp only [Image.paste, List.mem_map] at hr
    obtain ⟨Y, -, hY⟩ := hr
    rw [← hY]
    simp [Image.paste]

lemma scaleIfNeeded_width (img : Image) (scale : Nat) (hs : 1 ≤ scale) :
    (scaleIfNeeded img scale).width = img.width * scale := by
  unfold scaleIfNeeded
  by_cases h : scale > 1
  · rw [if_pos h]
    rfl
  · rw [if_neg h]
    have h1 : scale = 1 := by omega
    rw [h1, Nat.mul_one]

lemma scaleIfNeeded_height (img : Image) (scale : Nat) (hs : 1 ≤ scale) :
    (scaleIfNeeded img scale).height = img.height * scale := by
  unfold scaleIfNeeded
  by_cases h : scale > 1
  · rw [if_pos h]
    rfl
  · rw [if_neg h]
    have h1 : scale = 1 := by omega
    rw [h1, Nat.mul_one]

lemma region_disjoint {fw s c c' X : Nat} (hne : c ≠ c')
    (h1 : c * fw * s ≤ X) (h2 : X < c * fw * s + fw * s)
    (h1' : c' * fw * s ≤ X) (h2' : X < c' * fw * s + fw * s) : False := by
  rcases Nat.lt_or_ge c c' with hlt | hge
  · have hle : c * fw * s + fw * s ≤ c' * fw * s := by
      calc c * fw * s + fw * s = (c + 1) * fw * s := by ring
        _ ≤ c' * fw * s :=
          Nat.mul_le_mul_right s (Nat.mul_le_mul_right fw (Nat.succ_le_of_lt hlt))
    omega
  · have hlt' : c' < c := Nat.lt_of_le_of_ne hge (Ne.symm hne)
    have hle : c' * fw * s + fw * s ≤ c * fw * s := by
      calc c' * fw * s + fw * s = (c' + 1) * fw * s := by ring
        _ ≤ c * fw * s :=
          Nat.mul_le_mul_right s (Nat.mul_le_mul_right fw (Nat.succ_le_of_lt hlt'))
    omega

lemma region_eq {fw s c c' X : Nat}
    (h1 : c * fw * s ≤ X) (h2 : X < c * fw * s + fw * s)
    (h1' : c' * fw * s ≤ X) (h2' : X < c' * fw * s + fw * s) : c = c' := by
  by_contra hne
  exact region_disjoint hne h1 h2 h1' h2'

lemma frame_raster_ok {cmap : List (Char × List Char)}
    {f : List (List Char)} {fw fh : Nat}
    (hfh : f.length = fh) (hfw : (f.headD []).length = fw)
    (hrows : ∀ r ∈ f, r.length = fw)
    (hcmap : ∀ p ∈ cmap, (hex_to_rgba p.2).isSome = true) :
    ∃ base, ascii_to_image f cmap = Res.ok base ∧
      base.width = fw ∧ base.height = fh := by
  obtain ⟨base, hok, hWF, hw, hh, -⟩ :=
    ascii_to_image_ok f cmap (fun l hl => by rw [hrows l hl, hfw]) hcmap
  exact ⟨base, hok, by rw [hw, hfw], by rw [hh, hfh]⟩

lemma placeRow_ok (cmap : List (Char × List Char))
    (frames : List (String × List (List Char))) (fw fh scale row_idx : Nat)
    (hs : 1 ≤ scale)
    (hfd : ∀ p ∈ frames, (p.2).length = fh ∧ ((p.2).headD []).length = fw ∧
      ∀ r ∈ p.2, r.length = fw)
    (hcmap : ∀ p ∈ cmap, (hex_to_rgba p.2).isSome = true) :
    ∀ (ns : List String) (c0 : Nat) (sheet : Image), sheet.WF →
      ∃ sheet2, placeRow cmap frames fw fh scale row_idx ns c0 sheet = .ok sheet2 ∧
        sheet2.WF ∧ sheet2.width = sheet.width ∧ sheet2.height = sheet.height ∧
        ∀ X Y, X < sheet.width → Y < sheet.height →
          ((∀ j f base, j < ns.length →
              alistGet frames (ns.getD j "") = some f →
              ascii_to_image f cmap = Res.ok base →
              inRegion ((c0 + j) * fw * scale) (row_idx * fh * scale)
                (fw * scale) (fh * scale) X Y →
              sheet2.getPixel X Y = (scaleIfNeeded base scale).getPixel
                (X - (c0 + j) * fw * scale) (Y - row_idx * fh * scale)) ∧
            ((∀ j, j < ns.length →
                inRegion ((c0 + j) * fw * scale) (row_idx * fh * scale)
                  (fw * scale) (fh * scale) X Y →
                alistGet frames (ns.getD j "") = none) →
              sheet2.getPixel X Y = sheet.getPixel X Y)) := by
  intro ns
  induction ns with
  | nil =>
    intro c0 sheet hWF
    refine ⟨sheet, rfl, hWF, rfl, rfl, ?_⟩
    intro X Y hX hY
    constructor
    · intro j f base hj
      simp only [List.length_nil] at hj
      omega
    · intro _
      rfl
  | cons n rest ih =>
    intro c0 sheet hWF
    cases hlook : alistGet frames n with
    | none =>
      obtain ⟨sheet2, h2, hWF2, hw2, hh2, hpx2⟩ := ih (c0 + 1) sheet hWF
      have hrun : placeRow cmap frames fw fh scale row_idx (n :: rest) c0 sheet =
          placeRow cmap frames fw fh scale row_idx rest (c0 + 1) sheet := by
        simp only [placeRow, hlook]
      refine ⟨sheet2, by rw [hrun, h2], hWF2, hw2, hh2, ?_⟩
      intro X Y hX hY
      obtain ⟨hp1, hp2⟩ := hpx2 X Y hX hY
      constructor
      · intro j f base hj hget hbase hreg
        cases j with
        | zero =>
          rw [List.getD_cons_zero, hlook] at hget
          cases hget
        | succ j' =>
          have hshift : c0 + 1 + j' = c0 + (j' + 1) := by omega
          have hj2 : j' < rest.length := by
            simp only [List.length_cons] at hj
            omega
          have hget' : alistGet frames (rest.getD j' "") = some f := by
            rw [List.getD_cons_succ] at hget
            exact hget
          have hres := hp1 j' f base hj2 hget' hbase (by rw [hshift]; exact hreg)
          rw [hshift] at hres
          exact hres
      · intro hnone
        apply hp2
        intro j hj hreg
        have hshift : c0 + 1 + j = c0 + (j + 1) := by omega
        rw [hshift] at hreg
        have hres := hnone (j + 1)
          (by simp only [List.length_cons]; omega) hreg
        rw [List.getD_cons_succ] at hres
        exact hres
    | some f =>
      obtain ⟨hffh, hffw, hfrows⟩ := hfd (n, f) (alistGet_mem hlook)
      obtain ⟨base, hbase, hbw, hbh⟩ := frame_raster_ok hffh hffw hfrows hcmap
      have hfw' : (scaleIfNeeded base scale).width = fw * scale := by
        rw [scaleIfNeeded_width base scale hs, hbw]
      have hfh' : (scaleIfNeeded base scale).height = fh * scale := by
        rw [scaleIfNeeded_height base scale hs, hbh]
      have hrun : placeRow cmap frames fw fh scale row_idx (n :: rest) c0 sheet =
          placeRow cmap frames fw fh scale row_idx rest (c0 + 1)
            (sheet.paste (scaleIfNeeded base scale) (c0 * fw * scale)
              (row_idx * fh * scale)) := by
        simp only [placeRow, hlook, hbase]
      obtain ⟨sheet2, h2, hWF2, hw2, hh2, hpx2⟩ :=
        ih (c0 + 1) (sheet.paste (scaleIfNeeded base scale) (c0 * fw * scale)
          (row_idx * fh * scale)) (paste_WF _ _ _ _)
      refine ⟨sheet2, by rw [hrun, h2], hWF2, hw2, hh2, ?_⟩
      intro X Y hX hY
      obtain ⟨hp1, hp2⟩ := hpx2 X Y hX hY
      have hpaste := paste_getPixel sheet (scaleIfNeeded base scale)
        (c0 * fw * scale) (row_idx * fh * scale) X Y hX hY
      rw [hfw', hfh'] at hpaste
      constructor
      · intro j f' base' hj hget hbase' hreg
        cases j with
        | zero =>
          rw [List.getD_cons_zero, hlook] at hget
          injection hget with hget
          subst hget
          rw [hbase] at hbase'
          injection hbase' with hbase'
          subst hbase'
          rw [Nat.add_zero] at hreg ⊢
          have hnone2 : sheet2.getPixel X Y =
              (sheet.paste (scaleIfNeeded base scale) (c0 * fw * scale)
                (row_idx * fh * scale)).getPixel X Y := by
            apply hp2
            intro j' hj' hreg'
            exact (region_disjoint (show c0 ≠ c0 + 1 + j' by omega)
              hreg.1 hreg.2.1 hreg'.1 hreg'.2.1).elim
          rw [hnone2, hpaste, if_pos ⟨hreg.1, hreg.2.1, hreg.2.2.1, hreg.2.2.2⟩]
        | succ j' =>
          have hshift : c0 + 1 + j' = c0 + (j' + 1) := by omega
          have hj2 : j' < rest.length := by
            simp only [List.length_cons] at hj
            omega
          have hget' : alistGet frames (rest.getD j' "") = some f' := by
            rw [List.getD_cons_succ] at hget
            exact hget
          have hres := hp1 j' f' base' hj2 hget' hbase' (by rw [hshift]; exact hreg)
          rw [hshift] at hres
          exact hres
      · intro hnone
        have hreg0 : ¬ inRegion (c0 * fw * scale) (row_idx * fh * scale)
            (fw * scale) (fh * scale) X Y := by
          intro hreg
          have hres := hnone 0 (by simp only [List.length_cons]; omega)
            (by rw [Nat.add_zero]; exact hreg)
          rw [List.getD_cons_zero, hlook] at hres
          cases hres
        have h2' := hp2 (fun j hj hreg => by
          have hshift : c0 + 1 + j = c0 + (j + 1) := by omega
          rw [hshift] at hreg
          have hres := hnone (j + 1)
            (by simp only [List.length_cons]; omega) hreg
          rw [List.getD_cons_succ] at hres
          exact hres)
        rw [h2', hpaste, if_neg hreg0]

lemma placeRows_ok (cmap : List (Char × List Char))
    (frames : List (String × List (List Char))) (fw fh scale : Nat)
    (hs : 1 ≤ scale)
    (hfd : ∀ p ∈ frames, (p.2).length = fh ∧ ((p.2).headD []).length = fw ∧
      ∀ r ∈ p.2, r.length = fw)
    (hcmap : ∀ p ∈ cmap, (hex_to_rgba p.2).isSome = true) :
    ∀ (rs : List (List String)) (r0 : Nat) (sheet : Image), sheet.WF →
      ∃ sheet2, placeRows cmap frames fw fh scale rs r0 sheet = .ok sheet2 ∧
        sheet2.WF ∧ sheet2.width = sheet.width ∧ sheet2.height = sheet.height ∧
        ∀ X Y, X < sheet.width → Y < sheet.height →
          ((∀ i j f base, i < rs.length → j < (rs.getD i []).length →
              alistGet frames ((rs.getD i []).getD j "") = some f →
              ascii_to_image f cmap = Res.ok base →
              inRegion (j * fw * scale) ((r0 + i) * fh * scale)
                (fw * scale) (fh * scale) X Y →
              sheet2.getPixel X Y = (scaleIfNeeded base scale).getPixel
                (X - j * fw * scale) (Y - (r0 + i) * fh * scale)) ∧
            ((∀ i j, i < rs.length → j < (rs.getD i []).length →
                inRegion (j * fw * scale) ((r0 + i) * fh * scale)
                  (fw * scale) (fh * scale) X Y →
                alistGet frames ((rs.getD i []).getD j "") = none) →
              sheet2.getPixel X Y = sheet.getPixel X Y)) := by
  intro rs
  induction rs with
  | nil =>
    intro r0 sheet hWF
    refine ⟨sheet, rfl, hWF, rfl, rfl, ?_⟩
    intro X Y hX hY
    constructor
    · intro i j f base hi
      simp only [List.length_nil] at hi
      omega
    · intro _
      rfl
  | cons row rest ih =>
    intro r0 sheet hWF
    obtain ⟨sheet1, h1, hWF1, hw1, hh1, hpx1⟩ :=
      placeRow_ok cmap frames fw fh scale r0 hs hfd hcmap row 0 sheet hWF
    have hrun : placeRows cmap frames fw fh scale (row :: rest) r0 sheet =
        placeRows cmap frames fw fh scale rest (r0 + 1) sheet1 := by
      simp only [placeRows, h1]
    obtain ⟨sheet2, h2, hWF2, hw2, hh2, hpx2⟩ := ih (r0 + 1) sheet1 hWF1
    refine ⟨sheet2, by rw [hrun, h2], hWF2, by rw [hw2, hw1],
      by rw [hh2, hh1], ?_⟩
    intro X Y hX hY
    obtain ⟨hq1, hq2⟩ := hpx1 X Y hX hY
    obtain ⟨hp1, hp2⟩ := hpx2 X Y (by rw [hw1]; exact hX) (by rw [hh1]; exact hY)
    constructor
    · intro i j f base hi hj hget hbase hreg
      cases i with
      | zero =>
        rw [List.getD_cons_zero] at hj hget
        rw [Nat.add_zero] at hreg ⊢
        have hsheet12 : sheet2.getPixel X Y = sheet1.getPixel X Y := by
          apply hp2
          intro i' j' hi' hj' hreg'
          exact (region_disjoint (show r0 ≠ r0 + 1 + i' by omega)
            hreg.2.2.1 hreg.2.2.2 hreg'.2.2.1 hreg'.2.2.2).elim
        rw [hsheet12]
        have hres := hq1 j f base hj hget hbase (by rw [Nat.zero_add]; exact hreg)
        rw [Nat.zero_add] at hres
        exact hres
      | succ i' =>
        have hshift : r0 + 1 + i' = r0 + (i' + 1) := by omega
        have hi2 : i' < rest.length := by
          simp only [List.length_cons] at hi
          omega
        rw [List.getD_cons_succ] at hj hget
        have hres := hp1 i' j f base hi2 hj hget hbase (by rw [hshift]; exact hreg)
        rw [hshift] at hres
        exact hres
    · intro hnone
      have h22 : sheet2.getPixel X Y = sheet1.getPixel X Y := by
        apply hp2
        intro i' j' hi' hj' hreg'
        have hshift : r0 + 1 + i' = r0 + (i' + 1) := by omega
        rw [hshift] at hreg'
        have hres := hnone (i' + 1) j'
          (by simp only [List.length_cons]; omega)
          (by rw [List.getD_cons_succ]; exact hj') hreg'
        rw [List.getD_cons_succ] at hres
        exact hres
      have h12 : sheet1.getPixel X Y = sheet.getPixel X Y := by
        apply hq2
        intro j hj hreg
        rw [Nat.zero_add] at hreg
        have hres := hnone 0 j (by simp only [List.length_cons]; omega)
          (by rw [List.getD_cons_zero]; exact hj)
          (by rw [Nat.add_zero]; exact hreg)
        rw [List.getD_cons_zero] at hres
        exact hres
      rw [h22, h12]

/-- C4 — For a nonempty frame set whose frames all have H rows of W
characters, a rectangular layout, and scale ≥ 1, `create_sprite_sheet`
succeeds; the sheet measures (cols·W·scale, rows·H·scale); the slot at
(row r, column c) naming a present frame receives exactly that frame's
(scaled) rasterization at pixel offset (c·W·scale, r·H·scale); and a
slot naming an absent frame (including an empty name) leaves its region
fully transparent, without error. -/
theorem create_sprite_sheet_spec (layout : List (List String))
    (frames : List (String × List (List Char)))
    (cmap : List (Char × List Char)) (H W scale : Nat)
    (hne : frames ≠ [])
    (hdims : ∀ p ∈ frames, (p.2).length = H ∧ ((p.2).headD []).length = W ∧
      ∀ r ∈ p.2, r.length = W)
    (hcmap : ∀ p ∈ cmap, (hex_to_rgba p.2).isSome = true)
    (hs : 1 ≤ scale)
    (hrect : ∀ row ∈ layout, row.length = (layout.headD []).length) :
    ∃ sheet, create_sprite_sheet layout frames cmap scale = Res.ok sheet ∧
      sheet.width = (layout.headD []).length * W * scale ∧
      sheet.height = layout.length * H * scale ∧
      ∀ r c, r < layout.length → c < (layout.headD []).length →
        ((∀ f base, alistGet frames ((layout.getD r []).getD c "") = some f →
            ascii_to_image f cmap = Res.ok base →
            ∀ dx dy, dx < W * scale → dy < H * scale →
              sheet.getPixel (c * W * scale + dx) (r * H * scale + dy) =
                (scaleIfNeeded base scale).getPixel dx dy) ∧
          (alistGet frames ((layout.getD r []).getD c "") = none →
            ∀ dx dy, dx < W * scale → dy < H * scale →
              sheet.getPixel (c * W * scale + dx) (r * H * scale + dy) =
                transparent)) := by
  cases frames with
  | nil => exact absurd rfl hne
  | cons p0 tl =>
    obtain ⟨n0, first⟩ := p0
    obtain ⟨hfH, hfW, -⟩ := hdims (n0, first) (List.mem_cons_self _ _)
    have hrw : create_sprite_sheet layout ((n0, first) :: tl) cmap scale =
        placeRows cmap ((n0, first) :: tl) W H scale layout 0
          (Image.new ((layout.headD []).length * W * scale)
            (layout.length * H * scale)) := by
      simp only [create_sprite_sheet]
      rw [hfH, hfW]
    obtain ⟨sheet, hok, hWF, hw, hh, hpx⟩ :=
      placeRows_ok cmap ((n0, first) :: tl) W H scale hs hdims hcmap layout 0
        (Image.new ((layout.headD []).length * W * scale)
          (layout.length * H * scale)) (new_WF _ _)
    refine ⟨sheet, by rw [hrw, hok], hw, hh, ?_⟩
    intro r c hr hc
    have hrowlen : (layout.getD r []).length = (layout.headD []).length :=
      hrect _ (getD_mem_of_lt hr)
    have hXb : ∀ dx, dx < W * scale →
        c * W * scale + dx < (layout.headD []).length * W * scale := by
      intro dx hdx
      have he : (c + 1) * W * scale = c * W * scale + W * scale := by ring
      have hstep2 : (c + 1) * W * scale ≤ (layout.headD []).length * W * scale :=
        Nat.mul_le_mul_right scale (Nat.mul_le_mul_right W (Nat.succ_le_of_lt hc))
      omega
    have hYb : ∀ dy, dy < H * scale →
        r * H * scale + dy < layout.length * H * scale := by
      intro dy hdy
      have he : (r + 1) * H * scale = r * H * scale + H * scale := by ring
      have hstep2 : (r + 1) * H * scale ≤ layout.length * H * scale :=
        Nat.mul_le_mul_right scale (Nat.mul_le_mul_right H (Nat.succ_le_of_lt hr))
      omega
    constructor
    · intro f base hget hbase dx dy hdx hdy
      obtain ⟨hp1, hp2⟩ := hpx (c * W * scale + dx) (r * H * scale + dy)
        (hXb dx hdx) (hYb dy hdy)
      have hreg : inRegion (c * W * scale) ((0 + r) * H * scale)
          (W * scale) (H * scale) (c * W * scale + dx) (r * H * scale + dy) := by
        rw [Nat.zero_add]
        exact ⟨Nat.le_add_right _ _, by omega, Nat.le_add_right _ _, by omega⟩
      have hres := hp1 r c f base hr (by rw [hrowlen]; exact hc) hget hbase hreg
      rw [Nat.zero_add, Nat.add_sub_cancel_left, Nat.add_sub_cancel_left] at hres
      exact hres
    · intro hget dx dy hdx hdy
      obtain ⟨hp1, hp2⟩ := hpx (c * W * scale + dx) (r * H * scale + dy)
        (hXb dx hdx) (hYb dy hdy)
      have hXin1 : c * W * scale ≤ c * W * scale + dx := Nat.le_add_right _ _
      have hXin2 : c * W * scale + dx < c * W * scale + W * scale := by omega
      have hYin1 : r * H * scale ≤ r * H * scale + dy := Nat.le_add_right _ _
      have hYin2 : r * H * scale + dy < r * H * scale + H * scale := by omega
      have hres := hp2 (fun i j hi hj hreg => by
        rw [Nat.zero_add] at hreg
        have hjc : j = c := region_eq hreg.1 hreg.2.1 hXin1 hXin2
        have hir : i = r := region_eq hreg.2.2.1 hreg.2.2.2 hYin1 hYin2
        rw [hjc, hir]
        exact hget)
      rw [hres, getPixel_new]

/-- Witness for C4 at a concrete input: a 2×2 layout over 1×1 frames at
scale 1 yields a 2×2 sheet whose slot (1,1), naming the absent frame
"missing", is transparent. -/
theorem create_sprite_sheet_spec_witness : ∃ sheet,
    create_sprite_sheet [["a", "b"], ["c", "missing"]]
      [("a", [['@']]), ("b", [['#']]), ("c", [['@']])]
      [('@', ['f', 'f', '0', '0', '0', '0']),
       ('#', ['0', '0', 'f', 'f', '0', '0'])] 1 = Res.ok sheet ∧
      sheet.width = 2 ∧ sheet.height = 2 ∧ sheet.getPixel 1 1 = transparent := by
  obtain ⟨sheet, hok, hw, hh, hpx⟩ :=
    create_sprite_sheet_spec [["a", "b"], ["c", "missing"]]
      [("a", [['@']]), ("b", [['#']]), ("c", [['@']])]
      [('@', ['f', 'f', '0', '0', '0', '0']),
       ('#', ['0', '0', 'f', 'f', '0', '0'])] 1 1 1
      (by decide) (by decide) (by decide) (by decide) (by decide)
  refine ⟨sheet, hok, by rw [hw]; decide, by rw [hh]; decide, ?_⟩
  have hres := (hpx 1 1 (by decide) (by decide)).2 (by decide) 0 0
    (by decide) (by decide)
  simpa using hres
